import Mathlib

/-!
Verification of the weight-backend ingestion pipeline.

This file gives a shallow embedding of the core logic of the repository:

* `scale_reader.py` — the STX/ETX frame decoder (`WeighingScale.get_next_reading`)
  and the payload decoder (`WeighingScale._process_data`);
* `data_manager.py` — the bounded latest-readings cache (`deque(maxlen=...)`,
  `add_reading`) and the cursor query (`get_latest_readings`);
* `cloud_services.py` — the record-truncation logic of `upload_batch_to_firehose`;
* `workers.py` — one iteration of the batch upload loop
  (`firehose_uploader_worker`).

Strings are modelled as `List Char` (the Python buffer is a `str`), decoded
weights as `PyFloat` — the exact decimal value a numeral denotes, or one of
the special values `inf`/`-inf`/`nan` that Python's `float` also accepts
(IEEE rounding of finite values is not modelled) — and wall-clock times as
integers (the upload-loop claims depend only on ordering and subtraction of
timestamps).
-/

namespace WB

/-! ### Generic list helpers (Python `str.find` / backwards scan) -/

/-- Index of the first element satisfying `p`, like Python's `str.find`
(which returns `-1`, modelled as `none`). -/
def firstIdx (p : α → Bool) : List α → Option Nat
  | [] => none
  | x :: xs => if p x then some 0 else (firstIdx p xs).map (· + 1)

/-- Model of Python `str.find(ch)`. -/
def findChr (c : Char) (l : List Char) : Option Nat :=
  firstIdx (fun x => x = c) l

/-- Model of Python `str.rfind(ch)`: index of the last occurrence. -/
def rfindChr (c : Char) (l : List Char) : Option Nat :=
  (findChr c l.reverse).map (fun j => l.length - 1 - j)

/-- Model of Python `list.insert(n, a)` (clamps `n` to the length). -/
def pyInsert (n : Nat) (a : α) (l : List α) : List α :=
  l.take n ++ a :: l.drop n

/-! ### Models of the Python builtins `str.strip` and `float` -/

/-- Model of the whitespace class of Python's `str.strip()` and `float()`,
by character code: space, `\t`, `\n`, `\v`, `\f`, `\r` and the file/group/
record/unit separators `\x1c`–`\x1f`.  The serial buffer is decoded with
`errors='ignore'` from ASCII, so only code points below 128 ever occur and
the non-ASCII Unicode whitespace characters are unreachable. -/
def isPySpace (c : Char) : Bool :=
  c.toNat = 32 || c.toNat = 9 || c.toNat = 10 || c.toNat = 13 ||
    c.toNat = 11 || c.toNat = 12 || c.toNat = 28 || c.toNat = 29 ||
    c.toNat = 30 || c.toNat = 31

/-- A decimal digit character, by character code (codes 48–57). -/
def isDigitChar (c : Char) : Bool :=
  48 ≤ c.toNat && c.toNat ≤ 57

/-- Model of Python's `str.strip()`. -/
def pyStrip (l : List Char) : List Char :=
  ((l.dropWhile isPySpace).reverse.dropWhile isPySpace).reverse

/-- Value of a string of decimal digit characters, most significant first. -/
def digitsToNat (l : List Char) : Nat :=
  l.foldl (fun a c => 10 * a + (c.toNat - 48)) 0

/-- All characters are decimal digits. -/
def okDigits (l : List Char) : Bool := l.all isDigitChar

/-- The value of Python's `float()`: either a finite value (kept as the
exact decimal the numeral denotes — IEEE rounding, overflow of huge
exponents to infinity and underflow to zero are not modelled), or one of
the special values `inf`, `-inf`, `nan` that `float()` also accepts. -/
inductive PyFloat where
  | finite (q : ℚ)
  | inf
  | neginf
  | nan
deriving DecidableEq

/-- ASCII lower-casing of one character, as `float()` applies when matching
the `inf`/`infinity`/`nan` spellings case-insensitively. -/
def lowerChar (c : Char) : Char :=
  if 65 ≤ c.toNat ∧ c.toNat ≤ 90 then Char.ofNat (c.toNat + 32) else c

/-- PEP 515 underscore handling of `float()`: every `_` must sit directly
between two digits; valid underscores are removed, anything else is a
`ValueError`.  `prev` is the character preceding the current position in
the original string. -/
def deUnd (prev : Option Char) : List Char → Option (List Char)
  | [] => some []
  | c :: rest =>
    if c = '_' then
      match prev, rest with
      | some p, n :: _ =>
        if isDigitChar p = true ∧ isDigitChar n = true then deUnd (some c) rest
        else none
      | _, _ => none
    else (deUnd (some c) rest).map (c :: ·)

/-- The exponent tail of a `float()` numeral: empty, or `e`/`E` followed by
an optional sign and at least one digit. -/
def pyExp : List Char → Option Int
  | [] => some 0
  | c :: t =>
    if c = 'e' ∨ c = 'E' then
      match t with
      | '+' :: d => if d ≠ [] ∧ okDigits d = true then some (digitsToNat d) else none
      | '-' :: d => if d ≠ [] ∧ okDigits d = true then some (-(digitsToNat d : Int)) else none
      | d => if d ≠ [] ∧ okDigits d = true then some (digitsToNat d) else none
    else none

/-- An unsigned `float()` numeral after underscore removal: digits with an
optional single dot (at least one digit overall) and an optional exponent;
returns the exact decimal value it denotes. -/
def pyNumber (s : List Char) : Option ℚ :=
  if s.takeWhile isDigitChar = [] ∧
      (match s.dropWhile isDigitChar with
       | '.' :: t => t.takeWhile isDigitChar
       | _ => []) = [] then none
  else
    match pyExp (match s.dropWhile isDigitChar with
                 | '.' :: t => t.dropWhile isDigitChar
                 | r => r) with
    | none => none
    | some e =>
      some (((digitsToNat (s.takeWhile isDigitChar) : ℚ) +
        (digitsToNat (match s.dropWhile isDigitChar with
                      | '.' :: t => t.takeWhile isDigitChar
                      | _ => []) : ℚ) /
          (10 : ℚ) ^ (match s.dropWhile isDigitChar with
                      | '.' :: t => t.takeWhile isDigitChar
                      | _ => ([] : List Char)).length) * (10 : ℚ) ^ e)

/-- An unsigned `float()` payload with the sign already consumed: the
case-insensitive spellings `inf`, `infinity` and `nan`, or a numeral. -/
def pyUnsigned (neg : Bool) (u : List Char) : Option PyFloat :=
  if u.map lowerChar = ['i', 'n', 'f'] ∨
      u.map lowerChar = ['i', 'n', 'f', 'i', 'n', 'i', 't', 'y'] then
    some (if neg then PyFloat.neginf else PyFloat.inf)
  else if u.map lowerChar = ['n', 'a', 'n'] then some PyFloat.nan
  else
    match pyNumber u with
    | some q => some (PyFloat.finite (if neg then -q else q))
    | none => none

/-- A `float()` payload after whitespace stripping and underscore removal:
an optional sign followed by an unsigned payload (the sign of `nan` is
dropped, as Python's `nan` carries no usable sign). -/
def pySigned (t : List Char) : Option PyFloat :=
  match t with
  | [] => pyUnsigned false []
  | c :: r =>
    if c = '-' then pyUnsigned true r
    else if c = '+' then pyUnsigned false r
    else pyUnsigned false (c :: r)

/-- Model of Python's `float()` on an ASCII string: strip whitespace,
validate and remove PEP 515 underscores, then parse an optionally signed
numeral or `inf`/`infinity`/`nan`.  A `ValueError` is modelled as `none`. -/
def pyFloat (s : List Char) : Option PyFloat :=
  (deUnd none (pyStrip s)).bind pySigned

/-! ### scale_reader.py — payload decoding (`WeighingScale._process_data`) -/

/-- The character list built by `_process_data` (scale_reader.py lines 111–121):
the first 7 payload characters (`weight_chars`) with a decimal point inserted
at index `decimal_position_index = 7 - indicator` when that index is below 7,
where `indicator = ord(data[7]) - ord('0')`. -/
def weight_string (data : List Char) : List Char :=
  if ((7 : Int) - (((data.getD 7 ' ').toNat : Int) - 48)).toNat < 7 then
    pyInsert (((7 : Int) - (((data.getD 7 ' ').toNat : Int) - 48)).toNat) '.' (data.take 7)
  else data.take 7

/-- Model of `WeighingScale._process_data` (scale_reader.py lines 100–127):
length check, decimal-position indicator check (`0 <= indicator <= 7`),
decimal-point insertion, strip, and parse via `float`; every failure is
caught and returned as `none`. -/
def process_data (data : List Char) : Option PyFloat :=
  if data.length < 8 then none
  else if 0 ≤ (((data.getD 7 ' ').toNat : Int) - 48) ∧
      (((data.getD 7 ' ').toNat : Int) - 48) ≤ 7 then
    pyFloat (pyStrip (weight_string data))
  else none

/-! ### scale_reader.py — the STX/ETX frame loop (`WeighingScale.get_next_reading`) -/

/-- STX, the frame start marker (scale_reader.py line 73). -/
def STXC : Char := Char.ofNat 2

/-- ETX, the frame end marker (scale_reader.py line 74). -/
def ETXC : Char := Char.ofNat 3

/-- Result of one pass of the `while True` body in `get_next_reading`
(scale_reader.py lines 72–94): either a complete frame was cut out of the
buffer, or the call returns `None` leaving the given buffer behind. -/
inductive ScanStep where
  | frame (raw rest : List Char)
  | stop (rest : List Char)
deriving DecidableEq

/-- One pass of the `while True` body of `get_next_reading`: find the first
STX and the first ETX; extract the frame when STX precedes ETX; otherwise
apply the two heuristic buffer limits (> 500 with STX but no ETX: keep from
the last STX; > 256 with no STX: discard everything) or wait for more data. -/
def scanStep (buf : List Char) : ScanStep :=
  match findChr STXC buf, findChr ETXC buf with
  | some stx_index, some etx_index =>
    if stx_index < etx_index then
      ScanStep.frame ((buf.take etx_index).drop (stx_index + 1)) (buf.drop (etx_index + 1))
    else ScanStep.stop buf
  | some _, none =>
    if 500 < buf.length then
      ScanStep.stop (match rfindChr STXC buf with
        | some i => buf.drop i
        | none => [])
    else ScanStep.stop buf
  | none, _ => if 256 < buf.length then ScanStep.stop [] else ScanStep.stop buf

/-- Fuel-indexed driver: repeatedly run the loop body, decode each extracted
frame with `_process_data`, collect the successfully decoded weights, and
stop when the loop returns `None`.  This is the composition of
`get_next_reading`'s internal loop (which skips frames that fail to decode)
with the caller repeatedly invoking `get_next_reading` until it yields
`None`.  Returns the readings in order and the final buffer. -/
def drainAux : Nat → List Char → List PyFloat × List Char
  | 0, buf => ([], buf)
  | fuel + 1, buf =>
    match scanStep buf with
    | ScanStep.frame raw rest =>
      let p := drainAux fuel rest
      match process_data raw with
      | some w => (w :: p.1, p.2)
      | none => p
    | ScanStep.stop rest => ([], rest)

/-- Extract every available reading from the buffer (enough fuel: each frame
consumes at least one buffered character). -/
def drain (buf : List Char) : List PyFloat × List Char :=
  drainAux (buf.length + 1) buf

/-- Feed the buffer a sequence of chunks, extracting all available readings
after each chunk (`self._buffer += new_data` followed by the read loop);
returns all decoded readings in order and the final buffer. -/
def runChunks (buf : List Char) : List (List Char) → List PyFloat × List Char
  | [] => ([], buf)
  | c :: cs =>
    let p := drain (buf ++ c)
    let q := runChunks p.2 cs
    (p.1 ++ q.1, q.2)

/-- A first feed for the decoder: a start marker, 499 digit characters with
no terminator, then a second start marker (501 characters in total). -/
def exChunk1 : List Char := STXC :: (List.replicate 499 '1' ++ [STXC])

/-- A second feed: an undecodable 8-character payload and the terminator. -/
def exChunk2 : List Char := ['a', 'b', 'c', 'd', 'e', 'f', 'g', '5', ETXC]

/-- The same bytes as `exChunk1 ++ exChunk2`, as a single feed. -/
def exStream : List Char := exChunk1 ++ exChunk2

/-! ### data_manager.py — readings, the bounded cache and the cursor query -/

/-- The reading record built by `add_reading` (data_manager.py lines 26–32):
a uuid, an ISO timestamp and the decoded weight. -/
structure Reading where
  uuid : String
  timestamp : String
  weight : ℚ
deriving DecidableEq

/-- Model of `collections.deque(maxlen=m).append`: when the deque is full the
oldest (leftmost) entry is evicted; with `maxlen=0` the deque stays empty. -/
def dequeAppend (maxlen : Nat) (q : List α) (x : α) : List α :=
  if maxlen = 0 then []
  else if q.length < maxlen then q ++ [x]
  else q.tail ++ [x]

/-- The cache effect of `add_reading` (data_manager.py line 36):
`latest_readings_cache.append(reading_data)` on a deque with
`maxlen = MAX_CACHE_SIZE`. -/
def add_reading_cache (maxlen : Nat) (cache : List Reading) (r : Reading) : List Reading :=
  dequeAppend maxlen cache r

/-- Recording a whole sequence of readings in arrival order. -/
def add_readings (maxlen : Nat) (cache : List Reading) (rs : List Reading) : List Reading :=
  rs.foldl (add_reading_cache maxlen) cache

/-- Model of `get_latest_readings` (data_manager.py lines 55–79): with no
cursor (or the falsy empty string) return the whole snapshot; otherwise scan
the snapshot backwards for the first index whose uuid matches and return
everything strictly after it; an unmatched cursor returns the whole
snapshot. -/
def get_latest_readings (snap : List Reading) (since_uuid : Option String) : List Reading :=
  match since_uuid with
  | none => snap
  | some u =>
    if u = "" then snap
    else
      match firstIdx (fun r => r.uuid = u) snap.reverse with
      | some j => snap.drop ((snap.length - 1 - j) + 1)
      | none => snap

/-! ### cloud_services.py — batch truncation in `upload_batch_to_firehose` -/

/-- The records actually handed to the Firehose `put_record_batch` call
(cloud_services.py lines 50–58): a batch larger than the 500-record limit is
truncated to its first 500 records. -/
def firehose_submitted (records_batch : List α) : List α :=
  if 500 < records_batch.length then records_batch.take 500 else records_batch

/-- Whether `upload_batch_to_firehose` logs the oversize warning
(cloud_services.py lines 52–53). -/
def firehose_oversize_warning (records_batch : List α) : Bool :=
  500 < records_batch.length

/-! ### workers.py — one iteration of `firehose_uploader_worker`

Times are modelled as integers: the claims about the upload loop depend only
on ordering and subtraction of timestamps, never on their granularity. -/

/-- Configuration of the upload loop: `UPLOAD_BATCH_SIZE` and
`UPLOAD_INTERVAL_SECONDS` (config.py lines 20–21). -/
structure UploaderConfig where
  batchSize : Nat
  intervalSeconds : Int
deriving DecidableEq

/-- Loop-carried state of `firehose_uploader_worker`:
`records_batch_formatted` and `last_upload_time` (workers.py lines 45–46). -/
structure UploaderState (α : Type) where
  batch : List α
  lastUploadTime : Int

/-- The environment of one loop iteration: the wall clock read at the top of
the loop (workers.py line 50), the queue items the drain loop would obtain
before hitting `queue.Empty`, and the sink's verdict should an upload be
attempted (the return value of `upload_batch_to_firehose`). -/
structure UploaderInput (α : Type) where
  currentTime : Int
  queue : List α
  uploadOk : Bool

/-- Result of one iteration: the new loop state, the queue items left
undequeued, and the attempted upload, if any, as the submitted batch paired
with the sink verdict. -/
structure UploaderStep (α : Type) where
  state : UploaderState α
  queueRest : List α
  attempt : Option (List α × Bool)

/-- One iteration of the `while` loop of `firehose_uploader_worker`
(workers.py lines 48–90): drain the queue into the batch while the batch is
below `UPLOAD_BATCH_SIZE`; flush iff the batch is non-empty and (full or the
interval has elapsed); on success clear the batch, on failure retain it; the
flush-time reference is reset in both cases. -/
def uploaderIter (cfg : UploaderConfig) (st : UploaderState α) (inp : UploaderInput α) :
    UploaderStep α :=
  if 0 < (st.batch ++ inp.queue.take (cfg.batchSize - st.batch.length)).length ∧
      (cfg.batchSize ≤ (st.batch ++ inp.queue.take (cfg.batchSize - st.batch.length)).length ∨
        cfg.intervalSeconds ≤ inp.currentTime - st.lastUploadTime) then
    if inp.uploadOk then
      ⟨⟨[], inp.currentTime⟩, inp.queue.drop (cfg.batchSize - st.batch.length),
        some (st.batch ++ inp.queue.take (cfg.batchSize - st.batch.length), true)⟩
    else
      ⟨⟨st.batch ++ inp.queue.take (cfg.batchSize - st.batch.length), inp.currentTime⟩,
        inp.queue.drop (cfg.batchSize - st.batch.length),
        some (st.batch ++ inp.queue.take (cfg.batchSize - st.batch.length), false)⟩
  else
    ⟨⟨st.batch ++ inp.queue.take (cfg.batchSize - st.batch.length), st.lastUploadTime⟩,
      inp.queue.drop (cfg.batchSize - st.batch.length), none⟩

/-! ## Supporting lemmas -/

theorem firstIdx_lt_length {p : α → Bool} :
    ∀ {l : List α} {i : Nat}, firstIdx p l = some i → i < l.length := by
  intro l
  induction l with
  | nil => intro i h; simp [firstIdx] at h
  | cons x xs ih =>
    intro i h
    by_cases hp : p x
    · rw [firstIdx, if_pos hp] at h
      cases h
      simp
    · rw [firstIdx, if_neg hp] at h
      cases hj : firstIdx p xs with
      | none => rw [hj] at h; simp at h
      | some j =>
        rw [hj] at h
        simp at h
        have := ih hj
        simp
        omega

theorem firstIdx_append {p : α → Bool} (l l' : List α) :
    firstIdx p (l ++ l') =
      match firstIdx p l with
      | some i => some i
      | none => (firstIdx p l').map (· + l.length) := by
  induction l with
  | nil => simp [firstIdx]
  | cons x xs ih =>
    by_cases hp : p x
    · simp [firstIdx, hp]
    · cases h : firstIdx p xs with
      | some i =>
        have h2 : firstIdx p (xs ++ l') = some i := by rw [ih, h]
        simp [firstIdx, hp, h, h2]
      | none =>
        have h2 : firstIdx p (xs ++ l') = (firstIdx p l').map (· + xs.length) := by
          rw [ih, h]
        cases h' : firstIdx p l' with
        | some j =>
          rw [h'] at h2
          simp only [Option.map_some'] at h2
          simp [firstIdx, hp, h, h2, h']
          omega
        | none =>
          rw [h'] at h2
          simp only [Option.map_none'] at h2
          simp [firstIdx, hp, h, h2, h']

theorem firstIdx_eq_none {p : α → Bool} {l : List α}
    (h : ∀ x ∈ l, p x = false) : firstIdx p l = none := by
  induction l with
  | nil => rfl
  | cons x xs ih =>
    have hx := h x (by simp)
    simp only [firstIdx, hx, Bool.false_eq_true, if_false]
    rw [ih (fun y hy => h y (by simp [hy]))]
    rfl

theorem take_append_of_le {l₁ l₂ : List α} {n : Nat} (h : n ≤ l₁.length) :
    (l₁ ++ l₂).take n = l₁.take n := by
  induction l₁ generalizing n with
  | nil =>
    have hn : n = 0 := by simpa using h
    subst hn; simp
  | cons x xs ih =>
    cases n with
    | zero => simp
    | succ m =>
      have hm : m ≤ xs.length := by simpa using h
      simp [List.take_succ_cons, ih hm]

theorem drop_append_of_le {l₁ l₂ : List α} {n : Nat} (h : n ≤ l₁.length) :
    (l₁ ++ l₂).drop n = l₁.drop n ++ l₂ := by
  induction l₁ generalizing n with
  | nil =>
    have hn : n = 0 := by simpa using h
    subst hn; simp
  | cons x xs ih =>
    cases n with
    | zero => simp
    | succ m =>
      have hm : m ≤ xs.length := by simpa using h
      simp [List.drop_succ_cons, ih hm]

theorem scanStep_frame_length_lt {buf raw rest : List Char}
    (h : scanStep buf = ScanStep.frame raw rest) : rest.length < buf.length := by
  cases hs : findChr STXC buf with
  | none =>
    cases he : findChr ETXC buf <;>
      by_cases hb : 256 < buf.length <;>
        simp [scanStep, hs, he, hb] at h
  | some s =>
    cases he : findChr ETXC buf with
    | none =>
      by_cases hb : 500 < buf.length <;> simp [scanStep, hs, he, hb] at h
    | some e =>
      by_cases hlt : s < e
      · simp only [scanStep, hs, he, if_pos hlt, ScanStep.frame.injEq] at h
        have hee : e < buf.length := firstIdx_lt_length he
        obtain ⟨h1, h2⟩ := h
        subst h2
        simp
        omega
      · simp [scanStep, hs, he, hlt] at h

theorem drainAux_fuel :
    ∀ (f1 f2 : Nat) (buf : List Char), buf.length < f1 → buf.length < f2 →
      drainAux f1 buf = drainAux f2 buf := by
  intro f1
  induction f1 with
  | zero => intro f2 buf h1; omega
  | succ g ih =>
    intro f2 buf h1 h2
    cases f2 with
    | zero => omega
    | succ g2 =>
      have hlt : ∀ raw rest, scanStep buf = ScanStep.frame raw rest →
          drainAux g rest = drainAux g2 rest := by
        intro raw rest hs
        have := scanStep_frame_length_lt hs
        exact ih g2 rest (by omega) (by omega)
      rw [drainAux, drainAux]
      cases hs : scanStep buf with
      | frame raw rest => simp only [hlt raw rest hs]
      | stop rest => rfl

theorem drain_unfold (buf : List Char) :
    drain buf =
      match scanStep buf with
      | ScanStep.frame raw rest =>
        match process_data raw with
        | some w => (w :: (drain rest).1, (drain rest).2)
        | none => drain rest
      | ScanStep.stop rest => ([], rest) := by
  cases hs : scanStep buf with
  | frame raw rest =>
    have hl := scanStep_frame_length_lt hs
    have hfuel : drainAux buf.length rest = drain rest :=
      drainAux_fuel buf.length (rest.length + 1) rest (by omega) (by omega)
    show drainAux (buf.length + 1) buf = _
    rw [drainAux, hs]
    simp only [hfuel]
  | stop rest =>
    show drainAux (buf.length + 1) buf = _
    rw [drainAux, hs]

theorem foldl_digits (l : List Char) (a : Nat) :
    l.foldl (fun a c => 10 * a + (c.toNat - 48)) a = a * 10 ^ l.length + digitsToNat l := by
  induction l generalizing a with
  | nil => simp [digitsToNat]
  | cons c t ih =>
    simp only [digitsToNat, List.foldl_cons, List.length_cons]
    rw [ih (10 * a + (c.toNat - 48)), ih (10 * 0 + (c.toNat - 48))]
    ring

theorem digitsToNat_append (l₁ l₂ : List Char) :
    digitsToNat (l₁ ++ l₂) = digitsToNat l₁ * 10 ^ l₂.length + digitsToNat l₂ := by
  simp only [digitsToNat, List.foldl_append]
  exact foldl_digits l₂ _

theorem takeWhile_all {p : α → Bool} {l : List α} (h : ∀ c ∈ l, p c = true) :
    l.takeWhile p = l := by
  induction l with
  | nil => rfl
  | cons c t ih =>
    simp [List.takeWhile_cons, h c (by simp),
      ih (fun x hx => h x (List.mem_cons_of_mem c hx))]

theorem dropWhile_all {p : α → Bool} {l : List α} (h : ∀ c ∈ l, p c = true) :
    l.dropWhile p = [] := by
  induction l with
  | nil => rfl
  | cons c t ih =>
    simp [List.dropWhile_cons, h c (by simp),
      ih (fun x hx => h x (List.mem_cons_of_mem c hx))]

theorem takeWhile_append_stop {p : α → Bool} {l₁ : List α} {x : α} (l₂ : List α)
    (h : ∀ c ∈ l₁, p c = true) (hx : p x = false) :
    (l₁ ++ x :: l₂).takeWhile p = l₁ ∧ (l₁ ++ x :: l₂).dropWhile p = x :: l₂ := by
  induction l₁ with
  | nil => simp [List.takeWhile_cons, List.dropWhile_cons, hx]
  | cons c t ih =>
    have hc := h c (by simp)
    have iht := ih (fun y hy => h y (List.mem_cons_of_mem c hy))
    simp [List.takeWhile_cons, List.dropWhile_cons, hc, iht.1, iht.2]

theorem deUnd_no_underscore :
    ∀ (l : List Char) (prev : Option Char), (∀ c ∈ l, ¬c = '_') →
      deUnd prev l = some l := by
  intro l
  induction l with
  | nil => intro prev h; rfl
  | cons c t ih =>
    intro prev h
    have hc := h c (by simp)
    have iht := ih (some c) (fun x hx => h x (List.mem_cons_of_mem c hx))
    simp [deUnd, hc, iht]

theorem digit_ne {c d : Char} (h : isDigitChar c = true) (hd : isDigitChar d = false) :
    ¬c = d := by
  intro he
  subst he
  rw [h] at hd
  cases hd

theorem digit_not_space {c : Char} (h : isDigitChar c = true) : isPySpace c = false := by
  simp only [isDigitChar, Bool.and_eq_true, decide_eq_true_eq] at h
  simp only [isPySpace, Bool.or_eq_false_iff, decide_eq_false_iff_not]
  omega

theorem dropWhile_eq_self {p : α → Bool} {l : List α} (h : ∀ c ∈ l, p c = false) :
    l.dropWhile p = l := by
  cases l with
  | nil => rfl
  | cons c t => simp [List.dropWhile_cons, h c (by simp)]

theorem pyStrip_eq_self {l : List Char} (h : ∀ c ∈ l, isPySpace c = false) :
    pyStrip l = l := by
  rw [pyStrip, dropWhile_eq_self h,
    dropWhile_eq_self (fun c hc => h c (List.mem_reverse.mp hc)), List.reverse_reverse]

theorem digit_lower {c : Char} (h : isDigitChar c = true) : lowerChar c = c := by
  simp only [isDigitChar, Bool.and_eq_true, decide_eq_true_eq] at h
  rw [lowerChar, if_neg (by omega)]

theorem map_lower_head_ne {a : Char} {t : List Char} {c : Char} {w : List Char}
    (h : ¬lowerChar a = c) : ¬((a :: t).map lowerChar = c :: w) := by
  intro hh
  rw [List.map_cons] at hh
  injection hh with h1 h2
  exact h h1

theorem pyNumber_digits {l : List Char} (hne : l ≠ []) (hd : okDigits l = true) :
    pyNumber l = some ((digitsToNat l : ℚ)) := by
  have hmem := List.all_eq_true.mp hd
  have htw : l.takeWhile isDigitChar = l := takeWhile_all hmem
  have hdw : l.dropWhile isDigitChar = [] := dropWhile_all hmem
  simp only [pyNumber, htw, hdw]
  rw [if_neg (by simp [hne])]
  simp [pyExp, show digitsToNat [] = 0 from rfl]

theorem pyNumber_digits_dot {ip fp : List Char} (hip : okDigits ip = true)
    (hfp : okDigits fp = true) (hfpne : fp ≠ []) :
    pyNumber (ip ++ '.' :: fp) =
      some ((digitsToNat ip : ℚ) + (digitsToNat fp : ℚ) / (10 : ℚ) ^ fp.length) := by
  have hmemip := List.all_eq_true.mp hip
  have hmemfp := List.all_eq_true.mp hfp
  have hsplit := takeWhile_append_stop fp hmemip
    (show isDigitChar '.' = false by decide)
  have htwf : fp.takeWhile isDigitChar = fp := takeWhile_all hmemfp
  have hdwf : fp.dropWhile isDigitChar = [] := dropWhile_all hmemfp
  simp only [pyNumber, hsplit.1, hsplit.2, htwf, hdwf]
  rw [if_neg (by simp [hfpne])]
  simp [pyExp]

theorem pyFloat_digits {l : List Char} (hne : l ≠ []) (hd : okDigits l = true) :
    pyFloat l = some (PyFloat.finite (digitsToNat l)) := by
  have hmem := List.all_eq_true.mp hd
  have hspace : ∀ c ∈ l, isPySpace c = false := fun c hc => digit_not_space (hmem c hc)
  have hnu : ∀ c ∈ l, ¬c = '_' := fun c hc => digit_ne (hmem c hc) (by decide)
  rw [pyFloat, pyStrip_eq_self hspace, deUnd_no_underscore l none hnu]
  cases l with
  | nil => exact absurd rfl hne
  | cons a t =>
    have ha := hmem a (by simp)
    have hla : lowerChar a = a := digit_lower ha
    rw [Option.some_bind, pySigned, if_neg (digit_ne ha (by decide)),
      if_neg (digit_ne ha (by decide))]
    rw [pyUnsigned,
      if_neg (by
        push_neg
        exact ⟨map_lower_head_ne (by rw [hla]; exact digit_ne ha (by decide)),
          map_lower_head_ne (by rw [hla]; exact digit_ne ha (by decide))⟩),
      if_neg (map_lower_head_ne (by rw [hla]; exact digit_ne ha (by decide))),
      pyNumber_digits hne hd]
    rfl

theorem pyFloat_digits_dot {ip fp : List Char} (hip : okDigits ip = true)
    (hfp : okDigits fp = true) (hfpne : fp ≠ []) :
    pyFloat (ip ++ '.' :: fp) =
      some (PyFloat.finite
        ((digitsToNat ip : ℚ) + (digitsToNat fp : ℚ) / (10 : ℚ) ^ fp.length)) := by
  have hmemip := List.all_eq_true.mp hip
  have hmemfp := List.all_eq_true.mp hfp
  have hspace : ∀ c ∈ ip ++ '.' :: fp, isPySpace c = false := by
    intro c hc
    rcases List.mem_append.mp hc with hc1 | hc1
    · exact digit_not_space (hmemip c hc1)
    · rcases List.mem_cons.mp hc1 with rfl | hc2
      · decide
      · exact digit_not_space (hmemfp c hc2)
  have hnu : ∀ c ∈ ip ++ '.' :: fp, ¬c = '_' := by
    intro c hc
    rcases List.mem_append.mp hc with hc1 | hc1
    · exact digit_ne (hmemip c hc1) (by decide)
    · rcases List.mem_cons.mp hc1 with rfl | hc2
      · decide
      · exact digit_ne (hmemfp c hc2) (by decide)
  have hnum := pyNumber_digits_dot hip hfp hfpne
  rw [pyFloat, pyStrip_eq_self hspace, deUnd_no_underscore _ none hnu]
  cases ip with
  | nil =>
    rw [List.nil_append] at hnum ⊢
    rw [Option.some_bind, pySigned, if_neg (by decide), if_neg (by decide)]
    rw [pyUnsigned,
      if_neg (by
        push_neg
        exact ⟨map_lower_head_ne (by decide), map_lower_head_ne (by decide)⟩),
      if_neg (map_lower_head_ne (by decide)), hnum]
    rfl
  | cons a t =>
    have ha := hmemip a (by simp)
    have hla : lowerChar a = a := digit_lower ha
    rw [List.cons_append] at hnum ⊢
    rw [Option.some_bind, pySigned, if_neg (digit_ne ha (by decide)),
      if_neg (digit_ne ha (by decide))]
    rw [pyUnsigned,
      if_neg (by
        push_neg
        exact ⟨map_lower_head_ne (by rw [hla]; exact digit_ne ha (by decide)),
          map_lower_head_ne (by rw [hla]; exact digit_ne ha (by decide))⟩),
      if_neg (map_lower_head_ne (by rw [hla]; exact digit_ne ha (by decide))),
      hnum]
    rfl

/-- Claim C1: a payload of length at least 8 whose first 7 characters are
digits and whose 8th character is a digit in the range 0–7 decodes to the
7-digit numeral divided by 10 to the indicator, i.e. the parse of the digit
string with a decimal point inserted at index 7 − indicator (indicator 0:
no decimal point). -/
theorem c1_payload_decode (data : List Char)
    (hlen : 8 ≤ data.length)
    (hdig : okDigits (data.take 7) = true)
    (hind : 48 ≤ (data.getD 7 ' ').toNat ∧ (data.getD 7 ' ').toNat ≤ 55) :
    process_data data =
      some (PyFloat.finite ((digitsToNat (data.take 7) : ℚ) /
        (10 : ℚ) ^ ((data.getD 7 ' ').toNat - 48))) := by
  have hd7 : (data.take 7).length = 7 := by
    rw [List.length_take]; omega
  have hmem : ∀ c ∈ data.take 7, isDigitChar c = true := List.all_eq_true.mp hdig
  have hspace : ∀ c ∈ data.take 7, isPySpace c = false :=
    fun c hc => digit_not_space (hmem c hc)
  have hlt : ¬data.length < 8 := by omega
  have hcond : 0 ≤ (((data.getD 7 ' ').toNat : Int) - 48) ∧
      (((data.getD 7 ' ').toNat : Int) - 48) ≤ 7 := by omega
  rw [process_data, if_neg hlt, if_pos hcond]
  have hidx : ((7 : Int) - (((data.getD 7 ' ').toNat : Int) - 48)).toNat =
      7 - ((data.getD 7 ' ').toNat - 48) := by omega
  set k := (data.getD 7 ' ').toNat - 48 with hk
  have hk7 : k ≤ 7 := by omega
  rw [weight_string, hidx]
  by_cases hk0 : k = 0
  · rw [hk0]
    rw [if_neg (by omega)]
    have hne : data.take 7 ≠ [] := by
      intro hc
      rw [hc] at hd7
      simp at hd7
    rw [pyStrip_eq_self hspace, pyFloat_digits hne hdig]
    simp
  · rw [if_pos (by omega)]
    rw [pyInsert]
    have hfplen : ((data.take 7).drop (7 - k)).length = k := by
      rw [List.length_drop, hd7]; omega
    have hmemt : ∀ c ∈ (data.take 7).take (7 - k), isPySpace c = false :=
      fun c hc => hspace c (List.mem_of_mem_take hc)
    have hmemd : ∀ c ∈ (data.take 7).drop (7 - k), isPySpace c = false :=
      fun c hc => hspace c (List.mem_of_mem_drop hc)
    have hstr : pyStrip ((data.take 7).take (7 - k) ++ '.' :: (data.take 7).drop (7 - k)) =
        (data.take 7).take (7 - k) ++ '.' :: (data.take 7).drop (7 - k) := by
      refine pyStrip_eq_self (fun c hc => ?_)
      rcases List.mem_append.mp hc with hc1 | hc1
      · exact hmemt c hc1
      · rcases List.mem_cons.mp hc1 with hc2 | hc2
        · subst hc2; decide
        · exact hmemd c hc2
    rw [hstr]
    have hipok : okDigits ((data.take 7).take (7 - k)) = true :=
      List.all_eq_true.mpr (fun c hc => hmem c (List.mem_of_mem_take hc))
    have hfpok : okDigits ((data.take 7).drop (7 - k)) = true :=
      List.all_eq_true.mpr (fun c hc => hmem c (List.mem_of_mem_drop hc))
    have hfpne : (data.take 7).drop (7 - k) ≠ [] := by
      intro hcontra
      rw [hcontra] at hfplen
      simp at hfplen
      omega
    rw [pyFloat_digits_dot hipok hfpok hfpne]
    refine congrArg (fun q : ℚ => some (PyFloat.finite q)) ?_
    rw [hfplen]
    have hsplit : (data.take 7).take (7 - k) ++ (data.take 7).drop (7 - k) = data.take 7 :=
      List.take_append_drop _ _
    rw [← hsplit, digitsToNat_append, hfplen]
    have h10 : ((10 : ℚ) ^ k) ≠ 0 := pow_ne_zero _ (by norm_num)
    push_cast
    field_simp

/-- Witness for C1: the concrete payload from the specification,
`"12345673"`, decodes to the weight 1234.567. -/
theorem c1_payload_decode_witness :
    process_data ['1', '2', '3', '4', '5', '6', '7', '3'] =
      some (PyFloat.finite ((1234567 : ℚ) / 1000)) := by
  have h := c1_payload_decode ['1', '2', '3', '4', '5', '6', '7', '3']
    (by decide) (by decide) (by decide)
  have e1 : digitsToNat (List.take 7 ['1', '2', '3', '4', '5', '6', '7', '3']) = 1234567 := by
    decide
  have e2 : (List.getD ['1', '2', '3', '4', '5', '6', '7', '3'] 7 ' ').toNat - 48 = 3 := by
    decide
  rw [e1, e2] at h
  rw [h]
  norm_num

/-- Claim C8: a payload shorter than 8 characters, or with a decimal-position
indicator outside 0–7, or whose constructed string does not parse as a
number, decodes to `none`; decoding is a total function, it never raises. -/
theorem c8_decode_failure (data : List Char) :
    (data.length < 8 → process_data data = none) ∧
    (8 ≤ data.length →
      ((data.getD 7 ' ').toNat < 48 ∨ 55 < (data.getD 7 ' ').toNat) →
      process_data data = none) ∧
    (pyFloat (pyStrip (weight_string data)) = none → process_data data = none) := by
  refine ⟨fun h => ?_, fun h hi => ?_, fun h => ?_⟩
  · rw [process_data, if_pos h]
  · have hcond : ¬(0 ≤ (((data.getD 7 ' ').toNat : Int) - 48) ∧
        (((data.getD 7 ' ').toNat : Int) - 48) ≤ 7) := by omega
    rw [process_data, if_neg (show ¬data.length < 8 by omega), if_neg hcond]
  · by_cases hl : data.length < 8
    · rw [process_data, if_pos hl]
    · rw [process_data, if_neg hl]
      by_cases hc : 0 ≤ (((data.getD 7 ' ').toNat : Int) - 48) ∧
          (((data.getD 7 ' ').toNat : Int) - 48) ≤ 7
      · rw [if_pos hc, h]
      · rw [if_neg hc]

/-- Witness for C8: the 7-character payload `"1234567"` is too short and
yields a decode failure, and indicator digit 8 (payload `"12345678"`)
also yields a decode failure. -/
theorem c8_decode_failure_witness :
    process_data ['1', '2', '3', '4', '5', '6', '7'] = none ∧
    process_data ['1', '2', '3', '4', '5', '6', '7', '8'] = none :=
  ⟨(c8_decode_failure ['1', '2', '3', '4', '5', '6', '7']).1 (by decide),
   (c8_decode_failure ['1', '2', '3', '4', '5', '6', '7', '8']).2.1 (by decide) (by decide)⟩

/-- Claim C6: `snapshot_since` returns the whole snapshot when no cursor (or
an unmatched cursor) is supplied, returns exactly the readings strictly after
the newest match for a known cursor, returns the empty sequence for the last
reading's id, and never signals an error.  (The nonemptiness hypothesis on
the cursor reflects that generated uuids are never the empty string, which
the code treats as "no cursor".) -/
theorem c6_snapshot_since (snap : List Reading) :
    (get_latest_readings snap none = snap) ∧
    (∀ u : String, (∀ r ∈ snap, r.uuid ≠ u) → get_latest_readings snap (some u) = snap) ∧
    (∀ (u : String) (pre post : List Reading) (r : Reading), u ≠ "" →
      snap = pre ++ r :: post → r.uuid = u → (∀ x ∈ post, x.uuid ≠ u) →
      get_latest_readings snap (some u) = post) ∧
    (∀ (u : String) (r : Reading), u ≠ "" → snap.getLast? = some r → r.uuid = u →
      get_latest_readings snap (some u) = []) := by
  have key : ∀ (u : String) (pre post : List Reading) (r : Reading), u ≠ "" →
      snap = pre ++ r :: post → r.uuid = u → (∀ x ∈ post, x.uuid ≠ u) →
      get_latest_readings snap (some u) = post := by
    intro u pre post r hne hsnap hru hpost
    subst hsnap
    have hnone : firstIdx (fun x => x.uuid = u) post.reverse = none :=
      firstIdx_eq_none (fun x hx => by simp [hpost x (List.mem_reverse.mp hx)])
    have hfi : firstIdx (fun x => x.uuid = u) (pre ++ r :: post).reverse =
        some post.length := by
      rw [show (pre ++ r :: post).reverse = post.reverse ++ r :: pre.reverse by simp]
      rw [firstIdx_append, hnone]
      simp [firstIdx, hru]
    simp only [get_latest_readings, if_neg hne, hfi]
    have hlen : (pre ++ r :: post).length - 1 - post.length + 1 = pre.length + 1 := by
      simp only [List.length_append, List.length_cons]
      omega
    rw [hlen, show pre ++ r :: post = (pre ++ [r]) ++ post by simp,
      List.drop_left' (by simp)]
  refine ⟨rfl, ?_, key, ?_⟩
  · intro u hu
    by_cases hue : u = ""
    · simp [get_latest_readings, hue]
    · have hnone : firstIdx (fun x => x.uuid = u) snap.reverse = none :=
        firstIdx_eq_none (fun x hx => by simp [hu x (List.mem_reverse.mp hx)])
      simp [get_latest_readings, hue, hnone]
  · intro u r hne hlast hru
    have hmem' : r ∈ snap.getLast? := by rw [hlast]; rfl
    have hsnap := List.dropLast_append_getLast? r hmem'
    exact key u snap.dropLast [] r hne hsnap.symm hru (by simp)

/-- Witness for C6: on a three-reading snapshot, the cursor at the middle
reading returns the last reading only, an unknown cursor returns the whole
snapshot, and the cursor at the last reading returns the empty sequence. -/
theorem c6_snapshot_since_witness :
    get_latest_readings
        [⟨"u1", "t1", 1⟩, ⟨"u2", "t2", 1⟩, ⟨"u3", "t3", 1⟩] (some "u2") =
      [⟨"u3", "t3", 1⟩] ∧
    get_latest_readings
        [⟨"u1", "t1", 1⟩, ⟨"u2", "t2", 1⟩, ⟨"u3", "t3", 1⟩] (some "zz") =
      [⟨"u1", "t1", 1⟩, ⟨"u2", "t2", 1⟩, ⟨"u3", "t3", 1⟩] ∧
    get_latest_readings
        [⟨"u1", "t1", 1⟩, ⟨"u2", "t2", 1⟩, ⟨"u3", "t3", 1⟩] (some "u3") = [] := by
  refine ⟨?_, ?_, ?_⟩
  · exact (c6_snapshot_since _).2.2.1 "u2" [⟨"u1", "t1", 1⟩] [⟨"u3", "t3", 1⟩]
      ⟨"u2", "t2", 1⟩ (by decide) rfl rfl (by
        intro x hx
        rcases List.mem_singleton.mp hx with rfl
        decide)
  · exact (c6_snapshot_since _).2.1 "zz" (by
      intro x hx
      rcases List.mem_cons.mp hx with rfl | hx1
      · decide
      rcases List.mem_cons.mp hx1 with rfl | hx2
      · decide
      rcases List.mem_singleton.mp hx2 with rfl
      decide)
  · exact (c6_snapshot_since _).2.2.2 "u3" ⟨"u3", "t3", 1⟩ (by decide) rfl rfl

theorem add_readings_eq_drop (m : Nat) (rs : List Reading) :
    ∀ cache : List Reading, cache.length ≤ m →
      add_readings m cache rs = (cache ++ rs).drop ((cache ++ rs).length - m) := by
  induction rs with
  | nil =>
    intro cache h
    rw [add_readings, List.foldl_nil, List.append_nil,
      show cache.length - m = 0 by omega, List.drop_zero]
  | cons r rs' ih =>
    intro cache h
    rw [add_readings, List.foldl_cons, ← add_readings]
    by_cases hm : m = 0
    · subst hm
      have hc : cache = [] := by
        cases cache with
        | nil => rfl
        | cons a t => simp at h
      subst hc
      rw [show add_reading_cache 0 [] r = [] from rfl, ih [] (by simp)]
      simp
    · by_cases hfull : cache.length < m
      · have hstep : add_reading_cache m cache r = cache ++ [r] := by
          rw [add_reading_cache, dequeAppend, if_neg hm, if_pos hfull]
        rw [hstep, ih (cache ++ [r]) (by simp; omega)]
        simp [List.append_assoc]
      · have hlen : cache.length = m := by omega
        have hstep : add_reading_cache m cache r = cache.tail ++ [r] := by
          rw [add_reading_cache, dequeAppend, if_neg hm, if_neg hfull]
        cases cache with
        | nil =>
          exfalso
          simp at hlen
          omega
        | cons c0 ct =>
          rw [hstep, show (c0 :: ct).tail = ct from rfl,
            ih (ct ++ [r]) (by simp at hlen ⊢; omega)]
          have h1 : ((ct ++ [r]) ++ rs').length - m = rs'.length := by
            simp at hlen ⊢
            omega
          have h2 : ((c0 :: ct) ++ r :: rs').length - m = rs'.length + 1 := by
            simp at hlen ⊢
            omega
          rw [h1, h2, show ((c0 :: ct) ++ r :: rs') = c0 :: (ct ++ r :: rs') by simp,
            List.drop_succ_cons]
          simp [List.append_assoc]

/-- Claim C7: starting from a cache within its capacity, recording any
sequence of readings leaves the cache equal to the capacity-sized suffix of
all readings in arrival order (oldest evicted first), hence never above the
configured capacity; with capacity 3, inserting 5 readings into an empty
cache leaves exactly the last 3 in order. -/
theorem c7_cache_bounded (m : Nat) (cache rs : List Reading) (h : cache.length ≤ m) :
    add_readings m cache rs = (cache ++ rs).drop ((cache ++ rs).length - m) ∧
    (add_readings m cache rs).length ≤ m ∧
    (∀ r1 r2 r3 r4 r5 : Reading,
      add_readings 3 [] [r1, r2, r3, r4, r5] = [r3, r4, r5]) := by
  refine ⟨add_readings_eq_drop m rs cache h, ?_, fun r1 r2 r3 r4 r5 => rfl⟩
  rw [add_readings_eq_drop m rs cache h]
  simp
  omega

/-- Witness for C7: inserting five concrete readings into an empty cache of
capacity 3 leaves exactly the last three, in order. -/
theorem c7_cache_bounded_witness :
    add_readings 3 []
        [⟨"u1", "t1", 1⟩, ⟨"u2", "t2", 1⟩, ⟨"u3", "t3", 1⟩,
          ⟨"u4", "t4", 1⟩, ⟨"u5", "t5", 1⟩] =
      [⟨"u3", "t3", 1⟩, ⟨"u4", "t4", 1⟩, ⟨"u5", "t5", 1⟩] :=
  (c7_cache_bounded 3 [] [] (by decide)).2.2 ⟨"u1", "t1", 1⟩ ⟨"u2", "t2", 1⟩
    ⟨"u3", "t3", 1⟩ ⟨"u4", "t4", 1⟩ ⟨"u5", "t5", 1⟩

/-- Claim C9: a batch of more than 500 records is truncated to its first 500
records (a prefix, not a split), the oversize warning is logged, and no call
ever submits more than 500 records. -/
theorem c9_firehose_truncation (batch : List α) (h : 500 < batch.length) :
    firehose_submitted batch = batch.take 500 ∧
    (firehose_submitted batch).length = 500 ∧
    firehose_oversize_warning batch = true ∧
    (∀ b : List α, (firehose_submitted b).length ≤ 500) := by
  refine ⟨?_, ?_, ?_, ?_⟩
  · rw [firehose_submitted, if_pos h]
  · rw [firehose_submitted, if_pos h, List.length_take]
    omega
  · simp [firehose_oversize_warning, h]
  · intro b
    rw [firehose_submitted]
    by_cases hb : 500 < b.length
    · rw [if_pos hb, List.length_take]
      omega
    · rw [if_neg hb]
      omega

/-- Witness for C9: a 501-record batch is truncated to its first 500. -/
theorem c9_firehose_truncation_witness :
    firehose_submitted (List.replicate 501 (0 : Nat)) =
        (List.replicate 501 (0 : Nat)).take 500 ∧
    (firehose_submitted (List.replicate 501 (0 : Nat))).length = 500 :=
  ⟨(c9_firehose_truncation (List.replicate 501 (0 : Nat))
      (by rw [List.length_replicate]; norm_num)).1,
   (c9_firehose_truncation (List.replicate 501 (0 : Nat))
      (by rw [List.length_replicate]; norm_num)).2.1⟩

theorem uploaderIter_attempt_batch (cfg : UploaderConfig) (st : UploaderState α)
    (inp : UploaderInput α) (b : List α) (r : Bool)
    (h : (uploaderIter cfg st inp).attempt = some (b, r)) :
    b = st.batch ++ inp.queue.take (cfg.batchSize - st.batch.length) := by
  rw [uploaderIter] at h
  by_cases hcond : 0 < (st.batch ++ inp.queue.take (cfg.batchSize - st.batch.length)).length ∧
      (cfg.batchSize ≤ (st.batch ++ inp.queue.take (cfg.batchSize - st.batch.length)).length ∨
        cfg.intervalSeconds ≤ inp.currentTime - st.lastUploadTime)
  · rw [if_pos hcond] at h
    by_cases hup : inp.uploadOk
    · rw [if_pos hup] at h
      simp only [Option.some.injEq, Prod.mk.injEq] at h
      exact h.1.symm
    · rw [if_neg hup] at h
      simp only [Option.some.injEq, Prod.mk.injEq] at h
      exact h.1.symm
  · rw [if_neg hcond] at h
    exact Option.noConfusion h

theorem uploaderIter_fail_state (cfg : UploaderConfig) (st : UploaderState α)
    (inp : UploaderInput α) (b : List α)
    (h : (uploaderIter cfg st inp).attempt = some (b, false)) :
    (uploaderIter cfg st inp).state.batch = b := by
  rw [uploaderIter] at h ⊢
  by_cases hcond : 0 < (st.batch ++ inp.queue.take (cfg.batchSize - st.batch.length)).length ∧
      (cfg.batchSize ≤ (st.batch ++ inp.queue.take (cfg.batchSize - st.batch.length)).length ∨
        cfg.intervalSeconds ≤ inp.currentTime - st.lastUploadTime)
  · rw [if_pos hcond] at h ⊢
    by_cases hup : inp.uploadOk
    · rw [if_pos hup] at h
      simp only [Option.some.injEq, Prod.mk.injEq] at h
      exact absurd h.2 (by decide)
    · rw [if_neg hup] at h ⊢
      simp only [Option.some.injEq, Prod.mk.injEq] at h
      exact h.1
  · rw [if_neg hcond] at h
    exact Option.noConfusion h

/-- Claim C4: when an upload attempt fails, the attempted batch is retained
unchanged as the working batch, and the batch of the next attempt (whatever
its verdict) is exactly the previously-failed records followed by the newly
dequeued records — no record is dropped and none is duplicated within an
attempt. -/
theorem c4_retry_no_loss (cfg : UploaderConfig) (st : UploaderState α)
    (inp1 inp2 : UploaderInput α) (b1 : List α)
    (hfail : (uploaderIter cfg st inp1).attempt = some (b1, false)) :
    (uploaderIter cfg st inp1).state.batch = b1 ∧
    (∀ b2 r, (uploaderIter cfg ((uploaderIter cfg st inp1).state) inp2).attempt = some (b2, r) →
      b2 = b1 ++ inp2.queue.take (cfg.batchSize - b1.length)) := by
  have hst := uploaderIter_fail_state cfg st inp1 b1 hfail
  refine ⟨hst, fun b2 r h2 => ?_⟩
  have := uploaderIter_attempt_batch cfg _ inp2 b2 r h2
  rw [hst] at this
  exact this

/-- Witness for C4: with batch size 2, a failed upload of `[1, 2]` retains
the batch, and the next (successful) attempt submits exactly `[1, 2]` again
(the batch is already full, so nothing new is dequeued). -/
theorem c4_retry_no_loss_witness :
    (uploaderIter ⟨2, 60⟩ ⟨[], 0⟩ ⟨100, [1, 2, 3], false⟩).state.batch = [1, 2] ∧
    ([1, 2] : List Nat) = [1, 2] ++ ([3] : List Nat).take (2 - ([1, 2] : List Nat).length) :=
  ⟨(c4_retry_no_loss ⟨2, 60⟩ ⟨[], 0⟩ ⟨100, [1, 2, 3], false⟩ ⟨200, [3], true⟩ [1, 2]
      (by decide)).1,
   (c4_retry_no_loss ⟨2, 60⟩ ⟨[], 0⟩ ⟨100, [1, 2, 3], false⟩ ⟨200, [3], true⟩ [1, 2]
      (by decide)).2 [1, 2] true (by decide)⟩

/-- Claim C5: an upload is attempted in an iteration if and only if the
working batch (after draining) is non-empty and either it has reached the
configured maximum batch size or the elapsed time since the last flush-time
reference is at least the configured interval. -/
theorem c5_flush_condition (cfg : UploaderConfig) (st : UploaderState α)
    (inp : UploaderInput α) :
    (uploaderIter cfg st inp).attempt ≠ none ↔
      (st.batch ++ inp.queue.take (cfg.batchSize - st.batch.length) ≠ [] ∧
        (cfg.batchSize ≤ (st.batch ++ inp.queue.take (cfg.batchSize - st.batch.length)).length ∨
          cfg.intervalSeconds ≤ inp.currentTime - st.lastUploadTime)) := by
  rw [uploaderIter]
  by_cases hcond : 0 < (st.batch ++ inp.queue.take (cfg.batchSize - st.batch.length)).length ∧
      (cfg.batchSize ≤ (st.batch ++ inp.queue.take (cfg.batchSize - st.batch.length)).length ∨
        cfg.intervalSeconds ≤ inp.currentTime - st.lastUploadTime)
  · rw [if_pos hcond]
    constructor
    · intro _
      exact ⟨List.length_pos.mp hcond.1, hcond.2⟩
    · intro _
      by_cases hup : inp.uploadOk
      · rw [if_pos hup]
        simp
      · rw [if_neg hup]
        simp
  · rw [if_neg hcond]
    constructor
    · intro hc
      exact absurd rfl hc
    · intro hc
      exact absurd ⟨List.length_pos.mpr hc.1, hc.2⟩ hcond

/-- Witness for C5 (the claim's two instances): a full batch flushes before
the interval elapses, and a single queued item flushes once the interval has
elapsed. -/
theorem c5_flush_condition_witness :
    (uploaderIter ⟨2, 60⟩ ⟨[], (0 : Int)⟩ ⟨10, [1, 2, 3], true⟩).attempt ≠ none ∧
    (uploaderIter ⟨5, 60⟩ ⟨[], (0 : Int)⟩ ⟨100, [1], true⟩).attempt ≠ none :=
  ⟨(c5_flush_condition ⟨2, 60⟩ ⟨[], 0⟩ ⟨10, [1, 2, 3], true⟩).mpr
      ⟨by decide, Or.inl (by decide)⟩,
   (c5_flush_condition ⟨5, 60⟩ ⟨[], 0⟩ ⟨100, [1], true⟩).mpr
      ⟨by decide, Or.inr (by decide)⟩⟩

/-- Claim C10: from a working batch within the configured batch size, one
iteration keeps the retained batch within the batch size, every attempted
upload submits at most `UPLOAD_BATCH_SIZE` records, and when the configured
batch size is at most 500 the sink's truncation path is never taken (no
truncation warning, records passed through unchanged). -/
theorem c10_batch_bounded (cfg : UploaderConfig) (st : UploaderState α)
    (inp : UploaderInput α) (h : st.batch.length ≤ cfg.batchSize) :
    (uploaderIter cfg st inp).state.batch.length ≤ cfg.batchSize ∧
    (∀ b r, (uploaderIter cfg st inp).attempt = some (b, r) →
      b.length ≤ cfg.batchSize ∧
      (cfg.batchSize ≤ 500 →
        firehose_submitted b = b ∧ firehose_oversize_warning b = false)) := by
  have hblen : (st.batch ++ inp.queue.take (cfg.batchSize - st.batch.length)).length ≤
      cfg.batchSize := by
    rw [List.length_append, List.length_take]
    omega
  have hb : ∀ b r, (uploaderIter cfg st inp).attempt = some (b, r) →
      b.length ≤ cfg.batchSize := by
    intro b r hatt
    rw [uploaderIter_attempt_batch cfg st inp b r hatt]
    exact hblen
  refine ⟨?_, fun b r hatt => ⟨hb b r hatt, fun h500 => ?_⟩⟩
  · rw [uploaderIter]
    by_cases hcond : 0 < (st.batch ++ inp.queue.take (cfg.batchSize - st.batch.length)).length ∧
        (cfg.batchSize ≤ (st.batch ++ inp.queue.take (cfg.batchSize - st.batch.length)).length ∨
          cfg.intervalSeconds ≤ inp.currentTime - st.lastUploadTime)
    · rw [if_pos hcond]
      by_cases hup : inp.uploadOk
      · rw [if_pos hup]
        simp
      · rw [if_neg hup]
        exact hblen
    · rw [if_neg hcond]
      exact hblen
  · have hble : b.length ≤ 500 := le_trans (hb b r hatt) h500
    have hnb : ¬500 < b.length := by omega
    exact ⟨by rw [firehose_submitted, if_neg hnb],
      by simp [firehose_oversize_warning]; omega⟩

/-- Witness for C10: with batch size 2 the full attempted batch `[1, 2]`
stays within bounds and passes the sink untruncated. -/
theorem c10_batch_bounded_witness :
    (uploaderIter ⟨2, 60⟩ ⟨[1], 0⟩ ⟨0, [2, 3], true⟩).state.batch.length ≤ 2 ∧
    firehose_submitted ([1, 2] : List Nat) = [1, 2] :=
  ⟨(c10_batch_bounded ⟨2, 60⟩ ⟨[1], 0⟩ ⟨0, [2, 3], true⟩ (by decide)).1,
   (((c10_batch_bounded ⟨2, 60⟩ ⟨[1], 0⟩ ⟨0, [2, 3], true⟩ (by decide)).2 [1, 2] true
      (by decide)).2 (by decide)).1⟩

theorem scanStep_frame_append (b c raw rest : List Char)
    (h : scanStep b = ScanStep.frame raw rest) :
    scanStep (b ++ c) = ScanStep.frame raw (rest ++ c) := by
  cases hs : findChr STXC b with
  | none =>
    cases he : findChr ETXC b <;>
      by_cases hb : 256 < b.length <;>
        simp [scanStep, hs, he, hb] at h
  | some s =>
    cases he : findChr ETXC b with
    | none =>
      by_cases hb : 500 < b.length <;> simp [scanStep, hs, he, hb] at h
    | some e =>
      by_cases hlt : s < e
      · have hsl := firstIdx_lt_length hs
        have hel := firstIdx_lt_length he
        simp only [scanStep, hs, he, if_pos hlt, ScanStep.frame.injEq] at h
        obtain ⟨hraw, hrest⟩ := h
        have hs2 : findChr STXC (b ++ c) = some s := by
          rw [findChr] at hs ⊢
          rw [firstIdx_append, hs]
        have he2 : findChr ETXC (b ++ c) = some e := by
          rw [findChr] at he ⊢
          rw [firstIdx_append, he]
        simp only [scanStep, hs2, he2, if_pos hlt, ScanStep.frame.injEq]
        constructor
        · rw [take_append_of_le (by omega), hraw]
        · rw [drop_append_of_le (by omega), hrest]
      · simp [scanStep, hs, he, hlt] at h

theorem scanStep_stop_le256 (b rest : List Char) (h256 : b.length ≤ 256)
    (h : scanStep b = ScanStep.stop rest) : rest = b := by
  cases hs : findChr STXC b with
  | none =>
    have hb : ¬256 < b.length := by omega
    cases he : findChr ETXC b <;>
    · simp [scanStep, hs, he, hb] at h
      exact h.symm
  | some s =>
    cases he : findChr ETXC b with
    | none =>
      have hb : ¬500 < b.length := by omega
      simp [scanStep, hs, he, hb] at h
      exact h.symm
    | some e =>
      by_cases hlt : s < e
      · simp [scanStep, hs, he, hlt] at h
      · simp [scanStep, hs, he, hlt] at h
        exact h.symm

theorem drain_append_aux :
    ∀ (n : Nat) (b c : List Char), b.length ≤ n → b.length ≤ 256 →
      drain (b ++ c) = ((drain b).1 ++ (drain ((drain b).2 ++ c)).1,
        (drain ((drain b).2 ++ c)).2) := by
  intro n
  induction n with
  | zero =>
    intro b c hn h256
    have hb : b = [] := List.eq_nil_of_length_eq_zero (by omega)
    subst hb
    rw [List.nil_append, show drain ([] : List Char) = ([], []) from rfl]
    simp
  | succ m ih =>
    intro b c hn h256
    cases hs : scanStep b with
    | frame raw rest =>
      have hlt := scanStep_frame_length_lt hs
      have hsapp := scanStep_frame_append b c raw rest hs
      have hb : drain b =
          (match process_data raw with
           | some w => (w :: (drain rest).1, (drain rest).2)
           | none => drain rest) := by
        rw [drain_unfold b, hs]
      have hbc : drain (b ++ c) =
          (match process_data raw with
           | some w => (w :: (drain (rest ++ c)).1, (drain (rest ++ c)).2)
           | none => drain (rest ++ c)) := by
        rw [drain_unfold (b ++ c), hsapp]
      have ihr := ih rest c (by omega) (by omega)
      cases hw : process_data raw with
      | some w =>
        rw [hw] at hb hbc
        rw [hb, hbc, ihr]
        simp
      | none =>
        rw [hw] at hb hbc
        rw [hb, hbc, ihr]
    | stop rest =>
      have hrb := scanStep_stop_le256 b rest h256 hs
      have hb : drain b = ([], b) := by
        rw [drain_unfold b, hs, hrb]
      rw [hb]
      simp

theorem drain_residual :
    ∀ (n : Nat) (b : List Char), b.length ≤ n → b.length ≤ 256 →
      (drain b).2.length ≤ b.length ∧ drain ((drain b).2) = ([], (drain b).2) := by
  intro n
  induction n with
  | zero =>
    intro b hn h256
    have hb : b = [] := List.eq_nil_of_length_eq_zero (by omega)
    subst hb
    exact ⟨by simp [show drain ([] : List Char) = ([], []) from rfl], rfl⟩
  | succ m ih =>
    intro b hn h256
    cases hs : scanStep b with
    | frame raw rest =>
      have hlt := scanStep_frame_length_lt hs
      have hb : drain b =
          (match process_data raw with
           | some w => (w :: (drain rest).1, (drain rest).2)
           | none => drain rest) := by
        rw [drain_unfold b, hs]
      have ihr := ih rest (by omega) (by omega)
      cases hw : process_data raw with
      | some w =>
        rw [hw] at hb
        rw [hb]
        exact ⟨by simpa using le_trans ihr.1 (by omega), ihr.2⟩
      | none =>
        rw [hw] at hb
        rw [hb]
        exact ⟨le_trans ihr.1 (by omega), ihr.2⟩
    | stop rest =>
      have hrb := scanStep_stop_le256 b rest h256 hs
      have hb : drain b = ([], b) := by
        rw [drain_unfold b, hs, hrb]
      rw [hb]
      exact ⟨le_rfl, hb⟩

theorem runChunks_eq_drain :
    ∀ (cs : List (List Char)) (b : List Char),
      b.length + cs.flatten.length ≤ 256 → drain b = ([], b) →
      runChunks b cs = drain (b ++ cs.flatten) := by
  intro cs
  induction cs with
  | nil =>
    intro b hlen hdr
    rw [List.flatten_nil, List.append_nil, runChunks, hdr]
  | cons c cs' ih =>
    intro b hlen hdr
    have hflat : (c :: cs').flatten = c ++ cs'.flatten := rfl
    have h1 : (b ++ c).length ≤ 256 := by
      rw [hflat] at hlen
      simp at hlen ⊢
      omega
    have hres := drain_residual (b ++ c).length (b ++ c) le_rfl h1
    have ih' := ih ((drain (b ++ c)).2) (by
      rw [hflat] at hlen
      have := hres.1
      simp at hlen this ⊢
      omega) hres.2
    simp only [runChunks]
    rw [ih', hflat,
      show b ++ (c ++ cs'.flatten) = (b ++ c) ++ cs'.flatten from (List.append_assoc b c _).symm,
      drain_append_aux (b ++ c).length (b ++ c) cs'.flatten le_rfl h1]

set_option maxRecDepth 200000 in
/-- Claim C2 counterexample: the same byte stream decoded as one chunk yields
one reading, but decoded as two chunks yields none — the 500-byte trim to
the last start marker discards a partial frame that single-chunk decoding
folds into one payload — so the decoded sequences differ. -/
theorem c2_counterexample :
    exChunk1 ++ exChunk2 = exStream ∧
    (runChunks [] [exStream]).1.length = 1 ∧
    (runChunks [] [exChunk1, exChunk2]).1.length = 0 ∧
    (runChunks [] [exStream]).1 ≠ (runChunks [] [exChunk1, exChunk2]).1 := by
  refine ⟨rfl, ?_, ?_, ?_⟩
  · decide
  · decide
  · intro hc
    have hl := congrArg List.length hc
    rw [show (runChunks [] [exStream]).1.length = 1 by decide,
      show (runChunks [] [exChunk1, exChunk2]).1.length = 0 by decide] at hl
    cases hl

/-- Claim C2 (amended): for every byte stream of total length at most 256 —
so that the decoder's heuristic discard limits can never fire — feeding it
as one single chunk or split into arbitrarily many chunks (extracting
readings after each feed) yields the identical ordered sequence of decoded
readings. -/
theorem c2_chunk_independence (chunks : List (List Char))
    (h : chunks.flatten.length ≤ 256) :
    (runChunks [] chunks).1 = (runChunks [] [chunks.flatten]).1 := by
  have hnil : drain ([] : List Char) = ([], []) := rfl
  have h1 := runChunks_eq_drain chunks [] (by simpa using h) hnil
  have h2 := runChunks_eq_drain [chunks.flatten] [] (by simpa using h) hnil
  rw [h1, h2]
  simp

/-- Witness for the amended C2: a two-chunk split of a 10-byte framed stream
decodes to the same readings as the single-chunk feed. -/
theorem c2_chunk_independence_witness :
    (runChunks [] [[STXC, '1'], ['2', '3', '4', '5', '6', '7', '3', ETXC]]).1 =
      (runChunks []
        [([[STXC, '1'], ['2', '3', '4', '5', '6', '7', '3', ETXC]] :
          List (List Char)).flatten]).1 :=
  c2_chunk_independence [[STXC, '1'], ['2', '3', '4', '5', '6', '7', '3', ETXC]] (by decide)

theorem scanStep_stx_garbage (n : Nat) :
    scanStep (STXC :: List.replicate n 'a') =
      ScanStep.stop (STXC :: List.replicate n 'a') := by
  have hstx : findChr STXC (STXC :: List.replicate n 'a') = some 0 := by
    simp [findChr, firstIdx]
  have hetx : findChr ETXC (STXC :: List.replicate n 'a') = none := by
    apply firstIdx_eq_none
    intro x hx
    rcases List.mem_cons.mp hx with rfl | hx1
    · decide
    · have hxa : x = 'a' := List.eq_of_mem_replicate hx1
      subst hxa
      decide
  have hrf : rfindChr STXC (STXC :: List.replicate n 'a') = some 0 := by
    have hrev : (STXC :: List.replicate n 'a').reverse = List.replicate n 'a' ++ [STXC] := by
      simp
    have hnone : firstIdx (fun x => x = STXC) (List.replicate n 'a') = none := by
      apply firstIdx_eq_none
      intro x hx
      have hxa : x = 'a' := List.eq_of_mem_replicate hx
      subst hxa
      decide
    have hfind : findChr STXC ((STXC :: List.replicate n 'a').reverse) = some n := by
      rw [hrev, findChr, firstIdx_append, hnone]
      simp [firstIdx]
    rw [rfindChr, hfind]
    simp
  by_cases hlen : 500 < (STXC :: List.replicate n 'a').length <;>
    simp [scanStep, hstx, hetx, hrf, hlen]

theorem drain_stx_garbage (n : Nat) :
    drain (STXC :: List.replicate n 'a') = ([], STXC :: List.replicate n 'a') := by
  rw [drain_unfold, scanStep_stx_garbage n]

theorem runChunks_stx_garbage (m : Nat) :
    ∀ k : Nat, runChunks (STXC :: List.replicate k 'a') (List.replicate m ['a']) =
      ([], STXC :: List.replicate (k + m) 'a') := by
  induction m with
  | zero =>
    intro k
    rw [List.replicate_zero, runChunks]
    rw [Nat.add_zero]
  | succ m' ih =>
    intro k
    have happ : (STXC :: List.replicate k 'a') ++ ['a'] =
        STXC :: List.replicate (k + 1) 'a' := by
      rw [List.cons_append, ← List.replicate_succ']
    rw [List.replicate_succ]
    simp only [runChunks]
    rw [happ, drain_stx_garbage (k + 1), ih (k + 1)]
    simp only [List.nil_append]
    rw [show k + 1 + m' = k + (m' + 1) by omega]

/-- Claim C3 (code bug): after feeding a single start marker followed by `n`
arbitrary bytes that contain no further start marker and no end marker, the
decoder's buffer holds all `n + 1` bytes — `rfind` returns the position of
the initial start marker (0), so the trim `buffer[last_stx:]` discards
nothing and the buffer grows without bound instead of staying below a few
hundred bytes. -/
theorem c3_buffer_unbounded (n : Nat) :
    ((runChunks [] ([STXC] :: List.replicate n ['a'])).2).length = n + 1 := by
  have h0 : drain ([] ++ [STXC]) = ([], STXC :: List.replicate 0 'a') := by
    rw [List.nil_append]
    exact drain_stx_garbage 0
  simp only [runChunks]
  rw [h0, runChunks_stx_garbage n 0]
  simp

end WB
